import Mathlib

/-!
Verification of the dataset loading and feature-binning core
(src/io/dataset_loader.cpp of the LightGBM fork).

The development shallowly embeds the loader's state and algorithms:

* column-role resolution (DatasetLoader::SetHeader),
* the sample-value accumulation and bin-mapper assembly loops of
  DatasetLoader::ConstructBinMappersFromTextData and
  DatasetLoader::CostructFromSampleData,
* the multi-machine feature shard computation,
* the query-group partition loop shared by LoadTextDataToMemory and
  LoadFromBinFile,
* the LoadFromFile orchestration (group-column check, binary-cache path).

Machine integers (C++ int / data_size_t) are modelled as Int where
signedness matters and as Nat where the source values are provably
non-negative; double values are modelled as Rat (only comparisons on
them occur in the modelled code, never rounding arithmetic).  The
pseudo-random generator is modelled as the stream of results of its
successive NextInt(0, num_machines) calls.
-/

namespace DatasetLoaderSpec

/-- Sentinel meaning "no column assigned to this role" (value -1 in the source). -/
def NO_SPECIFIC : Int := -1

/-- Model of a BinMapper as seen by the loader: the loader only inspects
whether the learned quantization is trivial (the source method is named
is_trival).  The quantization itself is external to the modelled core. -/
structure BinMapperM where
  is_trival : Bool
deriving DecidableEq, Repr

/-- One iteration of the feature-assembly loops
(dataset_loader.cpp lines 632-649, 690-708 and 424-439): a null
BinMapper (ignored column) or a trivial BinMapper leaves the
used_feature_map entry at -1; otherwise the entry receives the current
size of the features vector and the Feature (original column index plus
its BinMapper) is appended. -/
def assembleStep (st : List Int × List (Nat × BinMapperM)) (ic : Nat × Option BinMapperM) :
    List Int × List (Nat × BinMapperM) :=
  match ic.2 with
  | none => st
  | some bm =>
    if bm.is_trival = false then
      (st.1.set ic.1 (Int.ofNat st.2.length), st.2 ++ [(ic.1, bm)])
    else st

/-- The feature-assembly loop: used_feature_map starts as a vector of
-1 entries of length num_total_features and the columns are visited in
ascending order.  The input list holds, per column, the BinMapper slot
(none for columns in ignore_features, where the source either stores a
null pointer or executes continue). -/
def assembleFeatures (cols : List (Option BinMapperM)) :
    List Int × List (Nat × BinMapperM) :=
  cols.enum.foldl assembleStep (List.replicate cols.length (-1), [])

/-- Structural recursion equivalent of the assembly loop, used to prove
its properties: first argument is the original column index of the list
head, second the number of features already emitted. -/
def assembleRec : Nat → Nat → List (Option BinMapperM) →
    List Int × List (Nat × BinMapperM)
  | _, _, [] => ([], [])
  | i, k, none :: rest =>
    let r := assembleRec (i + 1) k rest
    (-1 :: r.1, r.2)
  | i, k, some bm :: rest =>
    if bm.is_trival = false then
      let r := assembleRec (i + 1) (k + 1) rest
      ((Int.ofNat k) :: r.1, (i, bm) :: r.2)
    else
      let r := assembleRec (i + 1) k rest
      (-1 :: r.1, r.2)

/-- Resolved column-role state produced by DatasetLoader::SetHeader:
label_idx_, weight_idx_, group_idx_ and the ignore_features_ set. -/
structure HeaderRoles where
  label_idx : Int
  weight_idx : Int
  group_idx : Int
  ignore_features : Finset Int
deriving DecidableEq

/-- Label-removal shift of SetHeader (the "skip for label column" steps,
lines 65, 80, 106-108 and 130-132): a resolved raw column index strictly
greater than label_idx is decremented by one. -/
def shiftForLabel (label c : Int) : Int := if c > label then c - 1 else c

/-- Model of DatasetLoader::SetHeader (lines 20-135) after the
name-lookup / AtoiAndCheck resolution: each configured role supplies the
raw column index that the header lookup or the integer parse produced
(none when the config string is empty; lookup and parse failures abort
before any index is stored and never reach this state).  The source
order is followed: label (defaulting to 0), the ignore_column tokens,
then weight_column and group_column; weight_idx and group_idx default to
NO_SPECIFIC and, when configured, are shifted and inserted into
ignore_features. -/
def setHeader (label_raw : Option Int) (ignore_raw : List Int)
    (weight_raw group_raw : Option Int) : HeaderRoles :=
  let label := label_raw.getD 0
  let ign0 : Finset Int :=
    ignore_raw.foldl (fun s c => insert (shiftForLabel label c) s) ∅
  let weight := match weight_raw with
    | some c => shiftForLabel label c
    | none => NO_SPECIFIC
  let ign1 := match weight_raw with
    | some _ => insert weight ign0
    | none => ign0
  let group := match group_raw with
    | some c => shiftForLabel label c
    | none => NO_SPECIFIC
  let ign2 := match group_raw with
    | some _ => insert group ign1
    | none => ign1
  ⟨label, weight, group, ign2⟩

/-- The CHECK assertions of ConstructBinMappersFromTextData
(lines 605-607): label_idx in [0, num_total_features], weight_idx and
group_idx either negative or below num_total_features.  Note that the
entries of ignore_features_ are not checked. -/
def constructChecks (label weight group numTotalFeatures : Int) : Prop :=
  (0 ≤ label ∧ label ≤ numTotalFeatures)
  ∧ (weight < 0 ∨ weight < numTotalFeatures)
  ∧ (group < 0 ∨ group < numTotalFeatures)

instance (label weight group n : Int) :
    Decidable (constructChecks label weight group n) := by
  unfold constructChecks; infer_instance

/-- Threshold of the sample filter at line 585: only parsed values with
absolute value above 1e-15 enter sample_values.  Doubles are modelled as
rationals; the modelled code only compares them, never computes. -/
def sampleEps : Rat := 1 / 1000000000000000

/-- Inner body of the sample collection loop (lines 584-595): a parsed
pair (column, value) whose value passes the filter first extends
sample_values with empty columns up to length column+1 when needed and
then appends the value to its column; a filtered-out pair changes
nothing. -/
def pushSampleValue (sv : List (List Rat)) (p : Nat × Rat) : List (List Rat) :=
  if |p.2| > sampleEps then
    let sv2 := if sv.length ≤ p.1 then sv ++ List.replicate (p.1 + 1 - sv.length) [] else sv
    sv2.set p.1 (sv2.getD p.1 [] ++ [p.2])
  else sv

/-- Sample-value accumulation over all sample lines (lines 580-596);
each line is represented by its ParseOneLine output, the list of
(column, value) pairs in row order. -/
def buildSampleValues (lines : List (List (Nat × Rat))) : List (List Rat) :=
  lines.foldl (fun sv line => line.foldl pushSampleValue sv) []

/-- One plus the highest column index whose value passes the 1e-15
filter, over all sample lines (0 when no pair qualifies). -/
def maxSignificantCol (lines : List (List (Nat × Rat))) : Nat :=
  lines.foldl (fun m line => line.foldl
    (fun m p => if |p.2| > sampleEps then max m (p.1 + 1) else m) m) 0

/-- Initialization of used_feature_map (lines 600-601 and 420-421): a
vector of num_total_features entries, every one -1. -/
def initialUsedFeatureMap (n : Nat) : List Int := List.replicate n (-1)

/-- Step size of the multi-machine feature shards (lines 659-660):
ceil division of the feature count by the machine count, clamped below
by one. -/
def shardStep (total M : Int) : Int :=
  let s := (total + M - 1) / M
  if s < 1 then 1 else s

/-- The shard-building loop of lines 662-667: the first argument of the
recursion counts the shards still to emit before the last one, the
second is the running start index.  Each non-last shard has length
min(step, total - start) and the last shard takes all remaining
columns. -/
def shardBuild (step total : Int) : Nat → Int → List Int × List Int
  | 0, s => ([s], [total - s])
  | Nat.succ k, s =>
    let l := min step (total - s)
    let r := shardBuild step total k (s + l)
    (s :: r.1, l :: r.2)

/-- The start and len arrays computed by the multi-machine path of
ConstructBinMappersFromTextData (lines 656-667) for M machines over
total features. -/
def computeShards (total : Int) (M : Nat) : List Int × List Int :=
  shardBuild (shardStep total M) total (M - 1) 0

/-- Loop state of the query-granularity partition (lines 352-375 of
LoadFromBinFile; the closures of lines 488-509 and 547-568 carry the
same qid / is_query_used state).  rngPos counts the NextInt calls made
so far: the random stream is modelled by the function draws from call
number to result. -/
structure QueryPartState where
  qid : Int
  is_query_used : Bool
  rngPos : Nat
  kept : List Nat
deriving DecidableEq, Repr

/-- Initial partition state: qid = -1, is_query_used = false, no RNG
call made, no row kept. -/
def queryPartInit : QueryPartState := ⟨-1, false, 0, []⟩

/-- One row of the query-granularity partition loop: fatal (none) when
qid has reached num_queries; otherwise a row crossing
query_boundaries[qid+1] starts a new query, whose keep decision is a
fresh NextInt(0, num_machines) draw compared against rank; the row is
kept when the current query's decision is positive. -/
def queryPartStepRow (draws : Nat → Nat) (rank : Nat) (qb : Nat → Nat)
    (numQueries : Nat) (s : QueryPartState) (i : Nat) : Option QueryPartState :=
  if s.qid ≥ (numQueries : Int) then none
  else
    let s1 := if i ≥ qb (s.qid + 1).toNat then
        { qid := s.qid + 1, is_query_used := draws s.rngPos == rank,
          rngPos := s.rngPos + 1, kept := s.kept }
      else s
    some (if s1.is_query_used then { s1 with kept := s1.kept ++ [i] } else s1)

/-- The query-granularity partition over all rows 0..num_data-1. -/
def queryPartRun (draws : Nat → Nat) (rank : Nat) (qb : Nat → Nat)
    (numQueries numData : Nat) : Option QueryPartState :=
  (List.range numData).foldl
    (fun os i => os.bind (fun s => queryPartStepRow draws rank qb numQueries s i))
    (some queryPartInit)

/-- Row-granularity partition (lines 346-351 and the closures of lines
481-487 and 539-546): every row consumes one NextInt(0, num_machines)
draw and is kept when the draw equals rank.  Returns the kept rows and
the number of draws consumed. -/
def rowPartRun (draws : Nat → Nat) (rank : Nat) (numData : Nat) : List Nat × Nat :=
  (List.range numData).foldl
    (fun st i => (if draws st.2 == rank then st.1 ++ [i] else st.1, st.2 + 1))
    ([], 0)

/-- The rows of query group g: the indices from query_boundaries[g]
(inclusive) up to query_boundaries[g+1] (exclusive). -/
def groupRows (qb : Nat → Nat) (g : Nat) : List Nat :=
  List.range' (qb g) (qb (g + 1) - qb g)

/-- The rows the query-granularity partition keeps among groups
0..g-1: the full row range of every group whose single RNG draw (the
draw whose call number equals the group index) hit this machine's
rank. -/
def keptUpTo (draws : Nat → Nat) (rank : Nat) (qb : Nat → Nat) (g : Nat) : List Nat :=
  (List.range g).flatMap (fun j => if draws j == rank then groupRows qb j else [])

/-- The slice of IOConfig consulted by LoadFromFile's orchestration. -/
structure LoadConfig where
  num_machines : Nat
  rank : Nat
  is_pre_partition : Bool
  use_two_round_loading : Bool
deriving DecidableEq, Repr

/-- Abstraction of the external world of one LoadFromFile call: whether
a .bin cache sits next to the file (CheckCanLoadFromBin), the outputs
the text-reading helpers would produce, the header contents of the .bin
file, and the random stream. -/
structure LoadEnv where
  binExists : Bool
  textNumGlobalData : Int
  textUsedIndices : List Nat
  textNumData : Int
  binNumData : Nat
  binQueryBoundaries : Option (Nat → Nat)
  binNumQueries : Nat
  draws : Nat → Nat

/-- Observable result of a LoadFromFile call: the fatal group-column
precheck (line 141), the fatal query-range check inside partitioning,
or a built dataset carrying num_data and the (num_global_data,
used_data_indices) pair passed to metadata_.CheckOrPartition at
line 193. -/
inductive LoadOutcome where
  | fatalGroupOrder : LoadOutcome
  | fatalQueryRange : LoadOutcome
  | built : Int → Int × List Nat → LoadOutcome
deriving DecidableEq, Repr

/-- Partitioning performed inside LoadFromBinFile (lines 340-375): with
several machines and no pre-partition, rows are re-sampled at row or
query granularity and num_data shrinks to the kept count; the chosen
indices stay local to LoadFromBinFile.  none models the fatal
query-range abort. -/
def loadFromBinFilePartition (cfg : LoadConfig) (env : LoadEnv) : Option (Nat × List Nat) :=
  if cfg.num_machines > 1 ∧ cfg.is_pre_partition = false then
    match env.binQueryBoundaries with
    | none =>
      let r := rowPartRun env.draws cfg.rank env.binNumData
      some (r.1.length, r.1)
    | some qb =>
      match queryPartRun env.draws cfg.rank qb env.binNumQueries env.binNumData with
      | none => none
      | some s => some (s.kept.length, s.kept)
  else some (env.binNumData, [])

/-- Orchestration of DatasetLoader::LoadFromFile (lines 137-197).  The
group-column precheck of lines 139-144 runs before any file is touched;
num_global_data starts at 0 and used_data_indices starts empty
(lines 149-150); only the text branches overwrite them, the binary
branch leaves them untouched, so line 193's CheckOrPartition receives
whatever they hold at the end. -/
def loadFromFile (cfg : LoadConfig) (group_idx : Int) (env : LoadEnv) : LoadOutcome :=
  if cfg.num_machines > 1 ∧ cfg.is_pre_partition = false ∧ group_idx > 0 then
    LoadOutcome.fatalGroupOrder
  else
    if env.binExists = false then
      LoadOutcome.built env.textNumData (env.textNumGlobalData, env.textUsedIndices)
    else
      match loadFromBinFilePartition cfg env with
      | none => LoadOutcome.fatalQueryRange
      | some r => LoadOutcome.built (Int.ofNat r.1) (0, [])

/-- The slice of IOConfig consulted by CostructFromSampleData, together
with the weight and group column strings (which it never reads). -/
structure IOConfigM where
  max_bin : Nat
  num_class : Int
  is_enable_sparse : Bool
  data_random_seed : Int
  weight_column : String
  group_column : String
deriving DecidableEq, Repr

/-- The Dataset fields produced by CostructFromSampleData. -/
structure DatasetM where
  num_data : Int
  num_class : Int
  num_total_features : Nat
  num_features : Nat
  used_feature_map : List Int
  features : List (Nat × BinMapperM)
  feature_names : List String
  meta_weight_idx : Int
  meta_group_idx : Int
deriving DecidableEq, Repr

/-- Model of DatasetLoader::CostructFromSampleData (lines 408-453).
findBin abstracts BinMapper::FindBin, mapping the per-column sample
vector, total_sample_size and max_bin to the learned BinMapper; the
assembly loop of lines 424-439 is the all-slots-filled instance of
assembleFeatures; feature names fall back to Column_i placeholders when
no header was seen; line 451 initializes the metadata with NO_SPECIFIC
for both the weight and the group role. -/
def costructFromSampleData (cfg : IOConfigM)
    (findBin : List Rat → Nat → Nat → BinMapperM) (feature_names : List String)
    (sample_values : List (List Rat)) (total_sample_size : Nat) (num_data : Int) :
    DatasetM :=
  let bin_mappers := sample_values.map (fun v => findBin v total_sample_size cfg.max_bin)
  let asm := assembleFeatures (bin_mappers.map some)
  let names := if feature_names.length ≤ 0 then
      (List.range bin_mappers.length).map (fun i => "Column_" ++ toString i)
    else feature_names
  { num_data := num_data
    num_class := cfg.num_class
    num_total_features := bin_mappers.length
    num_features := asm.2.length
    used_feature_map := asm.1
    features := asm.2
    feature_names := names
    meta_weight_idx := NO_SPECIFIC
    meta_group_idx := NO_SPECIFIC }

theorem set_append_length (pre : List Int) (v : Int) (rest : List Int) :
    (pre ++ rest).set pre.length v = pre ++ rest.set 0 v := by
  induction pre with
  | nil => simp
  | cons a l ih => simp [List.set, ih]

theorem assembleRec_length (i k : Nat) (l : List (Option BinMapperM)) :
    (assembleRec i k l).1.length = l.length := by
  induction l generalizing i k with
  | nil => simp [assembleRec]
  | cons c rest ih =>
    cases c with
    | none => simp [assembleRec, ih]
    | some bm =>
      by_cases h : bm.is_trival = false <;> simp [assembleRec, h, ih]

theorem assembleStep_none (st : List Int × List (Nat × BinMapperM)) (i : Nat) :
    assembleStep st (i, none) = st := rfl

theorem assembleStep_kept (st : List Int × List (Nat × BinMapperM)) (i : Nat)
    (bm : BinMapperM) (h : bm.is_trival = false) :
    assembleStep st (i, some bm) = (st.1.set i (Int.ofNat st.2.length), st.2 ++ [(i, bm)]) := by
  simp [assembleStep, h]

theorem assembleStep_trivial (st : List Int × List (Nat × BinMapperM)) (i : Nat)
    (bm : BinMapperM) (h : bm.is_trival = true) :
    assembleStep st (i, some bm) = st := by
  simp [assembleStep, h]

theorem enumFrom_cons (t : Nat) (c : Option BinMapperM) (rest : List (Option BinMapperM)) :
    List.enumFrom t (c :: rest) = (t, c) :: List.enumFrom (t + 1) rest := rfl

theorem assembleFeatures_eq_rec_aux (l : List (Option BinMapperM)) :
    ∀ (t : Nat) (pre : List Int) (f : List (Nat × BinMapperM)),
    pre.length = t →
    (List.enumFrom t l).foldl assembleStep (pre ++ List.replicate l.length (-1), f)
      = (pre ++ (assembleRec t f.length l).1, f ++ (assembleRec t f.length l).2) := by
  induction l with
  | nil => intro t pre f _; simp [assembleRec]
  | cons c rest ih =>
    intro t pre f hpre
    have hrepl : List.replicate (c :: rest).length (-1 : Int)
        = -1 :: List.replicate rest.length (-1) := by
      simp [List.replicate_succ]
    cases c with
    | none =>
      rw [enumFrom_cons, List.foldl_cons, assembleStep_none, hrepl]
      have hsplit : pre ++ (-1 : Int) :: List.replicate rest.length (-1)
          = (pre ++ [(-1 : Int)]) ++ List.replicate rest.length (-1) := by simp
      rw [hsplit, ih (t + 1) (pre ++ [(-1 : Int)]) f (by simp [hpre])]
      simp [assembleRec]
    | some bm =>
      cases htriv : bm.is_trival with
      | false =>
        rw [enumFrom_cons, List.foldl_cons, assembleStep_kept _ _ _ htriv, hrepl]
        have hset : (pre ++ (-1 : Int) :: List.replicate rest.length (-1)).set t
              (Int.ofNat f.length)
            = (pre ++ [Int.ofNat f.length]) ++ List.replicate rest.length (-1) := by
          rw [← hpre, set_append_length]
          simp
        rw [hset, ih (t + 1) (pre ++ [Int.ofNat f.length]) (f ++ [(t, bm)]) (by simp [hpre])]
        simp [assembleRec, htriv]
      | true =>
        rw [enumFrom_cons, List.foldl_cons, assembleStep_trivial _ _ _ htriv, hrepl]
        have hsplit : pre ++ (-1 : Int) :: List.replicate rest.length (-1)
            = (pre ++ [(-1 : Int)]) ++ List.replicate rest.length (-1) := by simp
        rw [hsplit, ih (t + 1) (pre ++ [(-1 : Int)]) f (by simp [hpre])]
        simp [assembleRec, htriv]

theorem assembleFeatures_eq_rec (cols : List (Option BinMapperM)) :
    assembleFeatures cols = assembleRec 0 0 cols := by
  have h := assembleFeatures_eq_rec_aux cols 0 [] [] rfl
  simpa [assembleFeatures, List.enum] using h

theorem assembleRec_filter_nonneg (l : List (Option BinMapperM)) :
    ∀ (i k : Nat),
    (assembleRec i k l).1.filter (fun x => decide (0 ≤ x))
      = (List.range' k (assembleRec i k l).2.length).map Int.ofNat := by
  induction l with
  | nil => intro i k; simp [assembleRec]
  | cons c rest ih =>
    intro i k
    cases c with
    | none => simpa [assembleRec] using ih (i + 1) k
    | some bm =>
      cases htriv : bm.is_trival with
      | false =>
        have h := ih (i + 1) (k + 1)
        simp only [assembleRec, htriv, if_pos]
        simp only [List.filter_cons, List.length_cons]
        rw [if_pos (by simp [Int.ofNat_nonneg])]
        rw [List.range'_succ]
        simpa using h
      | true => simpa [assembleRec, htriv] using ih (i + 1) k

theorem assembleRec_features_not_trivial (l : List (Option BinMapperM)) :
    ∀ (i k : Nat) (p : Nat × BinMapperM), p ∈ (assembleRec i k l).2 →
    p.2.is_trival = false := by
  induction l with
  | nil => intro i k p hp; simp [assembleRec] at hp
  | cons c rest ih =>
    intro i k p hp
    cases c with
    | none =>
      simp only [assembleRec] at hp
      exact ih (i + 1) k p hp
    | some bm =>
      cases htriv : bm.is_trival with
      | false =>
        simp only [assembleRec, htriv, if_pos, List.mem_cons] at hp
        rcases hp with h | h
        · rw [h]; exact htriv
        · exact ih (i + 1) (k + 1) p h
      | true =>
        simp only [assembleRec, htriv] at hp
        exact ih (i + 1) k p hp

theorem assembleRec_dropped_entry (l : List (Option BinMapperM)) :
    ∀ (i k j : Nat), j < l.length →
    (l.getD j none = none ∨ ∃ bm, l.getD j none = some bm ∧ bm.is_trival = true) →
    (assembleRec i k l).1.getD j 0 = -1 := by
  induction l with
  | nil => intro i k j hj _; simp at hj
  | cons c rest ih =>
    intro i k j hj hcase
    cases j with
    | zero =>
      cases c with
      | none => simp [assembleRec]
      | some bm =>
        rcases hcase with h | ⟨bm', hbm', htriv'⟩
        · simp at h
        · simp only [List.getD_cons_zero] at hbm'
          have : bm = bm' := by injection hbm'
          subst this
          simp [assembleRec, htriv']
    | succ j' =>
      have hj' : j' < rest.length := by simpa using hj
      have hcase' : rest.getD j' none = none
          ∨ ∃ bm, rest.getD j' none = some bm ∧ bm.is_trival = true := by
        simpa using hcase
      cases c with
      | none => simpa [assembleRec] using ih (i + 1) k j' hj' hcase'
      | some bm =>
        cases htriv : bm.is_trival with
        | false => simpa [assembleRec, htriv] using ih (i + 1) (k + 1) j' hj' hcase'
        | true => simpa [assembleRec, htriv] using ih (i + 1) k j' hj' hcase'

theorem assembleRec_entry_lower_bound (l : List (Option BinMapperM)) :
    ∀ (i k : Nat) (x : Int), x ∈ (assembleRec i k l).1 →
    x = -1 ∨ (Int.ofNat k) ≤ x := by
  induction l with
  | nil => intro i k x hx; simp [assembleRec] at hx
  | cons c rest ih =>
    intro i k x hx
    cases c with
    | none =>
      simp only [assembleRec, List.mem_cons] at hx
      rcases hx with h | h
      · exact Or.inl h
      · exact ih (i + 1) k x h
    | some bm =>
      cases htriv : bm.is_trival with
      | false =>
        simp only [assembleRec, htriv, if_pos, List.mem_cons] at hx
        rcases hx with h | h
        · exact Or.inr (le_of_eq h.symm)
        · rcases ih (i + 1) (k + 1) x h with h' | h'
          · exact Or.inl h'
          · exact Or.inr (le_trans (Int.ofNat_le.mpr (Nat.le_succ k)) h')
      | true =>
        simp [assembleRec, htriv] at hx
        rcases hx with h | h
        · exact Or.inl h
        · exact ih (i + 1) k x h

theorem assembleRec_pairwise (l : List (Option BinMapperM)) :
    ∀ (i k : Nat),
    (assembleRec i k l).1.Pairwise (fun a b => 0 ≤ a → 0 ≤ b → a < b) := by
  induction l with
  | nil => intro i k; simp [assembleRec]
  | cons c rest ih =>
    intro i k
    cases c with
    | none =>
      simp only [assembleRec]
      refine List.Pairwise.cons ?_ (ih (i + 1) k)
      intro b _ hneg _
      exact absurd hneg (by norm_num)
    | some bm =>
      cases htriv : bm.is_trival with
      | false =>
        simp only [assembleRec, htriv, if_pos]
        refine List.Pairwise.cons ?_ (ih (i + 1) (k + 1))
        intro b hb _ hbpos
        rcases assembleRec_entry_lower_bound rest (i + 1) (k + 1) b hb with h | h
        · omega
        · calc (Int.ofNat k) < Int.ofNat (k + 1) := Int.ofNat_lt.mpr (Nat.lt_succ_self k)
            _ ≤ b := h
      | true =>
        simp only [assembleRec, htriv]
        refine List.Pairwise.cons ?_ (ih (i + 1) k)
        intro b _ hneg _
        exact absurd hneg (by norm_num)

/-- C3: in every construction path (the two assembly loops of
ConstructBinMappersFromTextData and the loop of CostructFromSampleData,
all instances of assembleFeatures), the non-negative entries of
used_feature_map are exactly num_features = features.length in count,
form the contiguous range 0..num_features-1 each value appearing once
(their subsequence in column order is exactly the list 0,1,...), and are
assigned in ascending column order: for used columns i < j the map
entries satisfy map[i] < map[j]. -/
theorem used_feature_map_permutation (cols : List (Option BinMapperM)) :
    ((assembleFeatures cols).1.filter (fun x => decide (0 ≤ x))).length
        = (assembleFeatures cols).2.length
    ∧ (assembleFeatures cols).1.filter (fun x => decide (0 ≤ x))
        = (List.range (assembleFeatures cols).2.length).map Int.ofNat
    ∧ ∀ i j : Nat, i < j → j < (assembleFeatures cols).1.length →
        0 ≤ (assembleFeatures cols).1.getD i 0 → 0 ≤ (assembleFeatures cols).1.getD j 0 →
        (assembleFeatures cols).1.getD i 0 < (assembleFeatures cols).1.getD j 0 := by
  rw [assembleFeatures_eq_rec]
  have hfilter := assembleRec_filter_nonneg cols 0 0
  have hrange : List.range' 0 (assembleRec 0 0 cols).2.length
      = List.range (assembleRec 0 0 cols).2.length := (List.range_eq_range' _).symm
  refine ⟨?_, ?_, ?_⟩
  · rw [hfilter, hrange]; simp
  · rw [hfilter, hrange]
  · intro i j hij hj hi0 hj0
    have hpw := assembleRec_pairwise cols 0 0
    have hi : i < (assembleRec 0 0 cols).1.length := lt_trans hij hj
    rw [List.pairwise_iff_getElem] at hpw
    have := hpw i j hi hj hij
    rw [List.getD_eq_getElem _ _ hi, List.getD_eq_getElem _ _ hj] at *
    exact this hi0 hj0

theorem used_feature_map_permutation_witness :
    0 < 3
    ∧ (assembleFeatures [some ⟨false⟩, none, some ⟨true⟩, some ⟨false⟩]).1.getD 0 0
      < (assembleFeatures [some ⟨false⟩, none, some ⟨true⟩, some ⟨false⟩]).1.getD 3 0 :=
  ⟨by decide,
   (used_feature_map_permutation [some ⟨false⟩, none, some ⟨true⟩, some ⟨false⟩]).2.2
     0 3 (by decide) (by decide) (by decide) (by decide)⟩

/-- C4: every Feature appended by an assembly loop owns a BinMapper
whose is_trival flag is false, and every column whose BinMapper slot is
null (ignored column) or trivial keeps its -1 entry in
used_feature_map. -/
theorem kept_features_not_trivial (cols : List (Option BinMapperM)) :
    (∀ p ∈ (assembleFeatures cols).2, p.2.is_trival = false)
    ∧ ∀ j : Nat, j < cols.length →
        (cols.getD j none = none ∨ ∃ bm, cols.getD j none = some bm ∧ bm.is_trival = true) →
        (assembleFeatures cols).1.getD j 0 = -1 := by
  rw [assembleFeatures_eq_rec]
  exact ⟨fun p hp => assembleRec_features_not_trivial cols 0 0 p hp,
         fun j hj hc => assembleRec_dropped_entry cols 0 0 j hj hc⟩

theorem kept_features_not_trivial_witness :
    (0, BinMapperM.mk false).2.is_trival = false
    ∧ (assembleFeatures [some ⟨false⟩, none, some ⟨true⟩, some ⟨false⟩]).1.getD 2 0 = -1 :=
  ⟨(kept_features_not_trivial [some ⟨false⟩, none, some ⟨true⟩, some ⟨false⟩]).1
      (0, BinMapperM.mk false) (by decide),
   (kept_features_not_trivial [some ⟨false⟩, none, some ⟨true⟩, some ⟨false⟩]).2
      2 (by decide) (Or.inr ⟨⟨true⟩, rfl, rfl⟩)⟩

theorem mem_foldl_insert_of_mem_set (f : Int → Int) (ir : List Int) :
    ∀ (s : Finset Int) (x : Int), x ∈ s →
    x ∈ ir.foldl (fun s c => insert (f c) s) s := by
  induction ir with
  | nil => intro s x hx; simpa using hx
  | cons a l ih => intro s x hx; exact ih _ x (Finset.mem_insert_of_mem hx)

theorem mem_foldl_insert_of_mem_list (f : Int → Int) (ir : List Int) :
    ∀ (s : Finset Int) (c : Int), c ∈ ir →
    f c ∈ ir.foldl (fun s c => insert (f c) s) s := by
  induction ir with
  | nil => intro s c hc; simp at hc
  | cons a l ih =>
    intro s c hc
    rcases List.mem_cons.mp hc with h | h
    · subst h; exact mem_foldl_insert_of_mem_set f l _ _ (Finset.mem_insert_self _ _)
    · exact ih _ c h

theorem shiftForLabel_of_ne (label c : Int) (h : c ≠ label) :
    shiftForLabel label c = if c < label then c else c - 1 := by
  unfold shiftForLabel
  split_ifs <;> omega

/-- C6: for every role column (weight, group or an ignore token) whose
resolution produced the raw column index c with c different from
label_idx, the stored post-label-removal index is c when c is below
label_idx and c-1 when it is above. -/
theorem role_shift_after_label (label_raw : Option Int) (ignore_raw : List Int)
    (weight_raw group_raw : Option Int) (c : Int) :
    (weight_raw = some c →
      c ≠ (setHeader label_raw ignore_raw weight_raw group_raw).label_idx →
      (setHeader label_raw ignore_raw weight_raw group_raw).weight_idx
        = if c < (setHeader label_raw ignore_raw weight_raw group_raw).label_idx
          then c else c - 1)
    ∧ (group_raw = some c →
      c ≠ (setHeader label_raw ignore_raw weight_raw group_raw).label_idx →
      (setHeader label_raw ignore_raw weight_raw group_raw).group_idx
        = if c < (setHeader label_raw ignore_raw weight_raw group_raw).label_idx
          then c else c - 1)
    ∧ (c ∈ ignore_raw →
      c ≠ (setHeader label_raw ignore_raw weight_raw group_raw).label_idx →
      (if c < (setHeader label_raw ignore_raw weight_raw group_raw).label_idx
        then c else c - 1)
        ∈ (setHeader label_raw ignore_raw weight_raw group_raw).ignore_features) := by
  have hlabel : (setHeader label_raw ignore_raw weight_raw group_raw).label_idx
      = label_raw.getD 0 := by
    simp [setHeader]
  refine ⟨?_, ?_, ?_⟩
  · intro hw hne
    rw [hlabel] at hne ⊢
    subst hw
    cases group_raw <;> simp [setHeader, shiftForLabel_of_ne _ _ hne]
  · intro hg hne
    rw [hlabel] at hne ⊢
    subst hg
    cases weight_raw <;> simp [setHeader, shiftForLabel_of_ne _ _ hne]
  · intro hc hne
    rw [hlabel] at hne ⊢
    rw [← shiftForLabel_of_ne _ _ hne]
    have hbase : shiftForLabel (label_raw.getD 0) c
        ∈ ignore_raw.foldl (fun s x => insert (shiftForLabel (label_raw.getD 0) x) s)
          (∅ : Finset Int) :=
      mem_foldl_insert_of_mem_list _ ignore_raw ∅ c hc
    cases weight_raw <;> cases group_raw <;>
      simp [setHeader] <;>
      first
        | exact hbase
        | exact Or.inr hbase
        | exact Or.inr (Or.inr hbase)

theorem role_shift_after_label_witness :
    (setHeader (some 2) [0, 4] (some 1) (some 3)).weight_idx
      = if (1 : Int) < (setHeader (some 2) [0, 4] (some 1) (some 3)).label_idx
        then 1 else 1 - 1 :=
  (role_shift_after_label (some 2) [0, 4] (some 1) (some 3) 1).1 rfl (by decide)

/-- C5 (amended): whenever weight_column (respectively group_column) is
configured, the resolved weight_idx (group_idx) is a member of
ignore_features, and when the CHECK assertions of
ConstructBinMappersFromTextData pass, a non-negative weight_idx
(group_idx) lies below num_total_features.  The original claim's
stronger statement, that every element of ignore_features lies in
[0, num_total_features), is refuted by ignore_range_counterexample:
plain ignore_column entries are never range-checked. -/
theorem weight_group_in_ignore (label_raw : Option Int) (ignore_raw : List Int)
    (weight_raw group_raw : Option Int) (n : Int) :
    (∀ c, weight_raw = some c →
      (setHeader label_raw ignore_raw weight_raw group_raw).weight_idx
        ∈ (setHeader label_raw ignore_raw weight_raw group_raw).ignore_features)
    ∧ (∀ c, group_raw = some c →
      (setHeader label_raw ignore_raw weight_raw group_raw).group_idx
        ∈ (setHeader label_raw ignore_raw weight_raw group_raw).ignore_features)
    ∧ (constructChecks (setHeader label_raw ignore_raw weight_raw group_raw).label_idx
        (setHeader label_raw ignore_raw weight_raw group_raw).weight_idx
        (setHeader label_raw ignore_raw weight_raw group_raw).group_idx n →
      (0 ≤ (setHeader label_raw ignore_raw weight_raw group_raw).weight_idx →
        (setHeader label_raw ignore_raw weight_raw group_raw).weight_idx < n)
      ∧ (0 ≤ (setHeader label_raw ignore_raw weight_raw group_raw).group_idx →
        (setHeader label_raw ignore_raw weight_raw group_raw).group_idx < n)) := by
  refine ⟨?_, ?_, ?_⟩
  · intro c hw
    subst hw
    cases group_raw <;> simp [setHeader]
  · intro c hg
    subst hg
    cases weight_raw <;> simp [setHeader]
  · intro hchk
    rcases hchk with ⟨_, hw, hg⟩
    constructor <;> intro h0 <;> omega

theorem weight_group_in_ignore_witness :
    (setHeader none [] (some 1) none).weight_idx
      ∈ (setHeader none [] (some 1) none).ignore_features :=
  (weight_group_in_ignore none [] (some 1) none 5).1 1 rfl

/-- C5 (counterexample): an ignore_column token resolving to
post-removal index 4 is stored in ignore_features although the dataset
subsequently built from the sample has num_total_features = 2, and the
CHECK assertions still pass: ignore_features is not a subset of
[0, num_total_features). -/
theorem ignore_range_counterexample :
    (4 : Int) ∈ (setHeader none [5] none none).ignore_features
    ∧ constructChecks (setHeader none [5] none none).label_idx
        (setHeader none [5] none none).weight_idx
        (setHeader none [5] none none).group_idx
        ((buildSampleValues [[(0, (1 : Rat)), (1, 1)]]).length : Int)
    ∧ ¬((4 : Int) < ((buildSampleValues [[(0, (1 : Rat)), (1, 1)]]).length : Int)) := by
  have hlen : (buildSampleValues [[(0, (1 : Rat)), (1, 1)]]).length = 2 := by
    norm_num [buildSampleValues, pushSampleValue, sampleEps]
  refine ⟨by decide, ?_, ?_⟩
  · rw [hlen]
    simp only [constructChecks]
    decide
  · rw [hlen]
    decide

theorem pushSampleValue_length (sv : List (List Rat)) (p : Nat × Rat) :
    (pushSampleValue sv p).length
      = if |p.2| > sampleEps then max sv.length (p.1 + 1) else sv.length := by
  unfold pushSampleValue
  by_cases h : |p.2| > sampleEps
  · by_cases h2 : sv.length ≤ p.1
    · simp only [h, if_pos, h2, List.length_set, List.length_append,
        List.length_replicate]
      rw [Nat.max_eq_right (by omega)]
      omega
    · simp only [h, if_pos, h2, if_neg, if_false, eq_self_iff_true, List.length_set]
      exact (Nat.max_eq_left (by omega)).symm
  · simp [h]

theorem foldl_pushSampleValue_length (line : List (Nat × Rat)) :
    ∀ sv : List (List Rat), (line.foldl pushSampleValue sv).length
      = line.foldl (fun m p => if |p.2| > sampleEps then max m (p.1 + 1) else m)
          sv.length := by
  induction line with
  | nil => intro sv; rfl
  | cons p rest ih =>
    intro sv
    simp only [List.foldl_cons]
    rw [ih, pushSampleValue_length]

theorem buildSampleValues_length_aux (lines : List (List (Nat × Rat))) :
    ∀ sv : List (List Rat),
    (lines.foldl (fun sv line => line.foldl pushSampleValue sv) sv).length
      = lines.foldl (fun m line => line.foldl
          (fun m p => if |p.2| > sampleEps then max m (p.1 + 1) else m) m)
          sv.length := by
  induction lines with
  | nil => intro sv; rfl
  | cons line rest ih =>
    intro sv
    simp only [List.foldl_cons]
    rw [ih, foldl_pushSampleValue_length]

/-- C2 (amended): num_total_features, the length that sample_values
reaches after the sample loop, equals one plus the highest column index
among pairs whose value passes the 1e-15 filter (0 when none does), and
used_feature_map is initialized to that many entries, all -1.  The
original claim, quantifying over all parsed pairs regardless of the
filter, is refuted by num_total_features_counterexample. -/
theorem num_total_features_eq_max_significant (lines : List (List (Nat × Rat))) :
    (buildSampleValues lines).length = maxSignificantCol lines
    ∧ (initialUsedFeatureMap (buildSampleValues lines).length).length
        = (buildSampleValues lines).length
    ∧ ∀ x ∈ initialUsedFeatureMap (buildSampleValues lines).length, x = -1 := by
  refine ⟨?_, by simp [initialUsedFeatureMap], ?_⟩
  · unfold buildSampleValues maxSignificantCol
    simpa using buildSampleValues_length_aux lines []
  · intro x hx
    exact List.eq_of_mem_replicate hx

theorem num_total_features_eq_max_significant_witness :
    (buildSampleValues [[(0, (1 : Rat)), (5, 0)]]).length
        = maxSignificantCol [[(0, (1 : Rat)), (5, 0)]]
    ∧ (-1 : Int) = -1 := by
  refine ⟨(num_total_features_eq_max_significant [[(0, (1 : Rat)), (5, 0)]]).1, ?_⟩
  refine (num_total_features_eq_max_significant [[(0, (1 : Rat)), (5, 0)]]).2.2 (-1) ?_
  have hlen : (buildSampleValues [[(0, (1 : Rat)), (5, 0)]]).length = 1 := by
    norm_num [buildSampleValues, pushSampleValue, sampleEps]
  rw [hlen]
  decide

/-- C2 (counterexample): a sample whose highest parsed column index is 5
but whose value there is 0 yields sample_values of length 1, not 5 + 1:
num_total_features only counts columns whose value exceeds 1e-15 in
absolute value. -/
theorem num_total_features_counterexample :
    (buildSampleValues [[(0, (1 : Rat)), (5, 0)]]).length = 1
    ∧ (buildSampleValues [[(0, (1 : Rat)), (5, 0)]]).length ≠ 5 + 1 := by
  have hlen : (buildSampleValues [[(0, (1 : Rat)), (5, 0)]]).length = 1 := by
    norm_num [buildSampleValues, pushSampleValue, sampleEps]
  exact ⟨hlen, by rw [hlen]; decide⟩

/-- C10: CostructFromSampleData reads none of the weight or group
configuration: it hands NO_SPECIFIC for both roles to the metadata
initialization, and two configurations that agree on everything except
weight_column and group_column produce identical Datasets from the same
sample inputs. -/
theorem costruct_ignores_weight_group (cfg1 cfg2 : IOConfigM)
    (findBin : List Rat → Nat → Nat → BinMapperM) (feature_names : List String)
    (sample_values : List (List Rat)) (total_sample_size : Nat) (num_data : Int)
    (hmb : cfg1.max_bin = cfg2.max_bin) (hnc : cfg1.num_class = cfg2.num_class)
    (_hsp : cfg1.is_enable_sparse = cfg2.is_enable_sparse)
    (_hseed : cfg1.data_random_seed = cfg2.data_random_seed) :
    costructFromSampleData cfg1 findBin feature_names sample_values total_sample_size num_data
      = costructFromSampleData cfg2 findBin feature_names sample_values total_sample_size num_data
    ∧ (costructFromSampleData cfg1 findBin feature_names sample_values total_sample_size
        num_data).meta_weight_idx = NO_SPECIFIC
    ∧ (costructFromSampleData cfg1 findBin feature_names sample_values total_sample_size
        num_data).meta_group_idx = NO_SPECIFIC := by
  refine ⟨?_, rfl, rfl⟩
  unfold costructFromSampleData
  rw [hmb, hnc]

theorem costruct_ignores_weight_group_witness :
    costructFromSampleData (IOConfigM.mk 16 1 true 42 "wa" "ga")
        (fun _ _ _ => ⟨false⟩) [] [[(1 : Rat)]] 1 3
      = costructFromSampleData (IOConfigM.mk 16 1 true 42 "wb" "gb")
        (fun _ _ _ => ⟨false⟩) [] [[(1 : Rat)]] 1 3 :=
  (costruct_ignores_weight_group (IOConfigM.mk 16 1 true 42 "wa" "ga")
    (IOConfigM.mk 16 1 true 42 "wb" "gb") (fun _ _ _ => ⟨false⟩) [] [[(1 : Rat)]] 1 3
    rfl rfl rfl rfl).1

/-- C1 (amended): LoadFromFile aborts with the group-column fatal, before
any data is read, exactly when num_machines exceeds one, the data is not
pre-partitioned and the resolved in-data group index is strictly
positive.  The original claim, triggering on every group_idx different
from NO_SPECIFIC, is refuted by group_check_counterexample: a group
column resolving to post-removal index 0 escapes the check. -/
theorem group_check_fatal (cfg : LoadConfig) (group_idx : Int) (env : LoadEnv)
    (hm : cfg.num_machines > 1) (hp : cfg.is_pre_partition = false)
    (hg : group_idx > 0) :
    loadFromFile cfg group_idx env = LoadOutcome.fatalGroupOrder := by
  unfold loadFromFile
  rw [if_pos ⟨hm, hp, hg⟩]

theorem group_check_fatal_witness :
    loadFromFile (LoadConfig.mk 2 0 false false) 1
        (LoadEnv.mk false 5 [] 5 0 none 0 (fun _ => 0))
      = LoadOutcome.fatalGroupOrder :=
  group_check_fatal (LoadConfig.mk 2 0 false false) 1
    (LoadEnv.mk false 5 [] 5 0 none 0 (fun _ => 0)) (by decide) rfl (by decide)

/-- C1 (counterexample): with two machines, no pre-partition and a group
column resolving to post-removal index 0 (which is set, i.e. different
from NO_SPECIFIC) and no query file, LoadFromFile does not abort: it
proceeds to read the data and build the dataset, because the source
tests group_idx_ > 0 rather than group_idx_ >= 0. -/
theorem group_check_counterexample :
    loadFromFile (LoadConfig.mk 2 0 false false) 0
        (LoadEnv.mk false 5 [] 5 0 none 0 (fun _ => 0))
      = LoadOutcome.built 5 (5, [])
    ∧ (0 : Int) ≠ NO_SPECIFIC := by
  refine ⟨?_, by decide⟩
  rfl

/-- C9: on the binary-cache path of LoadFromFile, the final
metadata_.CheckOrPartition call receives num_global_data = 0 and an
empty used_data_indices vector, regardless of the rows LoadFromBinFile
selected internally: the dataset's num_data reflects the internal
partition while the caller's locals stay at their initial values. -/
theorem binfile_check_args (cfg : LoadConfig) (group_idx : Int) (env : LoadEnv)
    (nd : Nat) (kept : List Nat)
    (hbin : env.binExists = true)
    (hpart : loadFromBinFilePartition cfg env = some (nd, kept))
    (hnofatal : ¬(cfg.num_machines > 1 ∧ cfg.is_pre_partition = false ∧ group_idx > 0)) :
    loadFromFile cfg group_idx env = LoadOutcome.built (Int.ofNat nd) (0, []) := by
  unfold loadFromFile
  rw [if_neg hnofatal, hbin]
  simp [hpart]

theorem binfile_check_args_witness :
    loadFromFile (LoadConfig.mk 2 0 false false) (-1)
        (LoadEnv.mk true 5 [] 5 3 none 0 (fun _ => 0))
      = LoadOutcome.built (Int.ofNat 3) (0, []) :=
  binfile_check_args (LoadConfig.mk 2 0 false false) (-1)
    (LoadEnv.mk true 5 [] 5 3 none 0 (fun _ => 0)) 3 [0, 1, 2] rfl (by decide)
    (by decide)

theorem ceil_mul_ge (total M : Int) (hM : 0 < M) :
    total ≤ ((total + M - 1) / M) * M := by
  have hdvd : M * ((total + M - 1) / M) + (total + M - 1) % M = total + M - 1 :=
    Int.ediv_add_emod _ _
  have hrM : (total + M - 1) % M < M := Int.emod_lt_of_pos _ hM
  have hcomm : ((total + M - 1) / M) * M = M * ((total + M - 1) / M) := mul_comm _ _
  linarith

theorem shardStep_pos (total M : Int) : 1 ≤ shardStep total M := by
  unfold shardStep
  dsimp only
  split_ifs with h <;> omega

theorem shardStep_mul_ge (total M : Int) (_h0 : 0 ≤ total) (hM : 0 < M) :
    total ≤ shardStep total M * M := by
  have hceil := ceil_mul_ge total M hM
  unfold shardStep
  dsimp only
  split_ifs with h
  · have : ((total + M - 1) / M) * M ≤ 0 * M :=
      mul_le_mul_of_nonneg_right (by omega) (le_of_lt hM)
    simpa using by linarith
  · exact hceil

theorem shardStep_eq_ceil (total M : Int) (h1 : 1 ≤ total) (hM : 0 < M) :
    shardStep total M = (total + M - 1) / M := by
  have hge : 1 ≤ (total + M - 1) / M :=
    (Int.le_ediv_iff_mul_le hM).mpr (by linarith)
  unfold shardStep
  dsimp only
  rw [if_neg (by omega)]

theorem shardBuild_lengths (step total : Int) :
    ∀ (k : Nat) (s : Int), (shardBuild step total k s).1.length = k + 1
      ∧ (shardBuild step total k s).2.length = k + 1 := by
  intro k
  induction k with
  | zero => intro s; simp [shardBuild]
  | succ k ih => intro s; simp [shardBuild, ih]

theorem shardBuild_head (step total : Int) (k : Nat) (s : Int) :
    (shardBuild step total k s).1.getD 0 0 = s := by
  cases k <;> simp [shardBuild]

theorem shardBuild_contiguous (step total : Int) :
    ∀ (k : Nat) (s : Int) (i : Nat), i + 1 ≤ k →
    (shardBuild step total k s).1.getD (i + 1) 0
      = (shardBuild step total k s).1.getD i 0
        + (shardBuild step total k s).2.getD i 0 := by
  intro k
  induction k with
  | zero => intro s i hi; omega
  | succ k ih =>
    intro s i hi
    cases i with
    | zero =>
      simp only [shardBuild, List.getD_cons_succ, List.getD_cons_zero]
      rw [shardBuild_head]
    | succ i' =>
      simp only [shardBuild, List.getD_cons_succ]
      exact ih _ i' (by omega)

theorem shardBuild_last (step total : Int) :
    ∀ (k : Nat) (s : Int),
    (shardBuild step total k s).1.getD k 0 + (shardBuild step total k s).2.getD k 0
      = total := by
  intro k
  induction k with
  | zero => intro s; simp [shardBuild]
  | succ k ih =>
    intro s
    simp only [shardBuild, List.getD_cons_succ]
    exact ih _

theorem shardBuild_sum (step total : Int) :
    ∀ (k : Nat) (s : Int), (shardBuild step total k s).2.sum = total - s := by
  intro k
  induction k with
  | zero => intro s; simp [shardBuild]
  | succ k ih =>
    intro s
    simp only [shardBuild, List.sum_cons]
    rw [ih]
    ring

theorem shardBuild_len_bounds (step total : Int) (hstep : 1 ≤ step) :
    ∀ (k : Nat) (s : Int), 0 ≤ s → s ≤ total →
    total - s ≤ step * ((k : Int) + 1) →
    ∀ i : Nat, i ≤ k →
    0 ≤ (shardBuild step total k s).2.getD i 0
    ∧ (shardBuild step total k s).2.getD i 0 ≤ step
    ∧ (shardBuild step total k s).2.getD i 0 ≤ total - s := by
  intro k
  induction k with
  | zero =>
    intro s hs0 hst hrem i hi
    interval_cases i
    simp only [shardBuild, List.getD_cons_zero]
    refine ⟨by omega, ?_, by omega⟩
    have : ((0 : Nat) : Int) + 1 = 1 := by norm_num
    rw [this, mul_one] at hrem
    exact hrem
  | succ k ih =>
    intro s hs0 hst hrem i hi
    have hl0 : 0 ≤ min step (total - s) := le_min (by omega) (by omega)
    have hlrem : min step (total - s) ≤ total - s := min_le_right _ _
    have hlstep : min step (total - s) ≤ step := min_le_left _ _
    cases i with
    | zero =>
      simp only [shardBuild, List.getD_cons_zero]
      exact ⟨hl0, hlstep, hlrem⟩
    | succ i' =>
      simp only [shardBuild, List.getD_cons_succ]
      have hrem' : total - (s + min step (total - s)) ≤ step * ((k : Int) + 1) := by
        rcases le_or_lt step (total - s) with hc | hc
        · rw [min_eq_left hc]
          have hcast : ((k + 1 : Nat) : Int) + 1 = ((k : Int) + 1) + 1 := by push_cast; ring
          rw [hcast] at hrem
          linarith [hrem]
        · rw [min_eq_right (le_of_lt hc)]
          have : 0 ≤ step * ((k : Int) + 1) := by positivity
          linarith
      have := ih (s + min step (total - s)) (by omega) (by omega) hrem' i' (by omega)
      exact ⟨this.1, this.2.1, by omega⟩

/-- C8: for every total_num_feature at least 0 and num_machines at least
1, the multi-machine shard computation yields M start and M len entries
with start[0] = 0, contiguity start[i+1] = start[i] + len[i], every
length non-negative and at most ceil(total / M) = (total + M - 1) / M,
the last shard ending exactly at total (absorbing all remaining
columns), and the lengths summing to total, so the shards' disjoint
union is exactly [0, total). -/
theorem computeShards_spec (total : Int) (M : Nat) (h0 : 0 ≤ total) (hM : 1 ≤ M) :
    (computeShards total M).1.length = M
    ∧ (computeShards total M).2.length = M
    ∧ (computeShards total M).1.getD 0 0 = 0
    ∧ (∀ i : Nat, i + 1 < M → (computeShards total M).1.getD (i + 1) 0
        = (computeShards total M).1.getD i 0 + (computeShards total M).2.getD i 0)
    ∧ (∀ i : Nat, i < M → 0 ≤ (computeShards total M).2.getD i 0
        ∧ (computeShards total M).2.getD i 0 ≤ (total + (M : Int) - 1) / M)
    ∧ (computeShards total M).1.getD (M - 1) 0
        + (computeShards total M).2.getD (M - 1) 0 = total
    ∧ (computeShards total M).2.sum = total := by
  have hMpos : (0 : Int) < (M : Int) := by exact_mod_cast hM
  have hk : (M - 1) + 1 = M := by omega
  have hstep1 : 1 ≤ shardStep total M := shardStep_pos total M
  have hrem0 : total - 0 ≤ shardStep total M * (((M - 1 : Nat) : Int) + 1) := by
    have hcast : ((M - 1 : Nat) : Int) + 1 = (M : Int) := by
      have : ((M - 1 : Nat) : Int) = (M : Int) - 1 := by
        have : (1 : Nat) ≤ M := hM
        push_cast [Nat.cast_sub this]
        ring
      omega
    rw [hcast, sub_zero]
    exact shardStep_mul_ge total M h0 hMpos
  have hbounds := shardBuild_len_bounds (shardStep total M) total hstep1 (M - 1) 0
    le_rfl h0 hrem0
  have hcs : computeShards total M = shardBuild (shardStep total M) total (M - 1) 0 := rfl
  rw [hcs]
  refine ⟨?_, ?_, ?_, ?_, ?_, ?_, ?_⟩
  · rw [(shardBuild_lengths _ _ _ _).1, hk]
  · rw [(shardBuild_lengths _ _ _ _).2, hk]
  · exact shardBuild_head _ _ _ _
  · intro i hi
    exact shardBuild_contiguous _ _ (M - 1) 0 i (by omega)
  · intro i hi
    have hb := hbounds i (by omega)
    refine ⟨hb.1, ?_⟩
    rcases le_or_lt 1 total with h1 | h1
    · rw [← shardStep_eq_ceil total M h1 hMpos]
      exact hb.2.1
    · have htot0 : total = 0 := by omega
      have hceil0 : (total + (M : Int) - 1) / M = 0 := by
        rw [htot0]
        exact Int.ediv_eq_zero_of_lt (by omega) (by omega)
      rw [hceil0]
      have := hb.2.2
      omega
  · have := shardBuild_last (shardStep total M) total (M - 1) 0
    exact this
  · have := shardBuild_sum (shardStep total M) total (M - 1) 0
    rw [this]
    ring

theorem computeShards_spec_witness :
    (computeShards 5 3).1.length = 3
    ∧ (computeShards 5 3).2.getD 2 0 ≤ (5 + (3 : Int) - 1) / 3
    ∧ (computeShards 5 3).2.sum = 5 :=
  ⟨(computeShards_spec 5 3 (by decide) (by decide)).1,
   ((computeShards_spec 5 3 (by decide) (by decide)).2.2.2.2.1 2 (by decide)).2,
   (computeShards_spec 5 3 (by decide) (by decide)).2.2.2.2.2.2⟩

theorem keptUpTo_succ (draws : Nat → Nat) (rank : Nat) (qb : Nat → Nat) (g : Nat) :
    keptUpTo draws rank qb (g + 1)
      = keptUpTo draws rank qb g
        ++ (if draws g == rank then groupRows qb g else []) := by
  unfold keptUpTo
  rw [List.range_succ, List.flatMap_append]
  simp

theorem range_split (a b : Nat) (h : a ≤ b) :
    List.range b = List.range a ++ List.range' a (b - a) := by
  rw [List.range_eq_range' b, List.range_eq_range' a]
  have hap := List.range'_append 0 a (b - a) 1
  simp only [one_mul, zero_add] at hap
  rw [hap]
  congr 1
  omega

theorem queryPartStepRow_no_boundary (draws : Nat → Nat) (rank : Nat) (qb : Nat → Nat)
    (numQueries : Nat) (s : QueryPartState) (i : Nat)
    (hq : ¬ s.qid ≥ (numQueries : Int)) (hb : ¬ i ≥ qb (s.qid + 1).toNat) :
    queryPartStepRow draws rank qb numQueries s i
      = some (if s.is_query_used then { s with kept := s.kept ++ [i] } else s) := by
  unfold queryPartStepRow
  rw [if_neg hq]
  dsimp only
  rw [if_neg hb]

theorem queryPartStepRow_boundary (draws : Nat → Nat) (rank : Nat) (qb : Nat → Nat)
    (numQueries : Nat) (s : QueryPartState) (i : Nat)
    (hq : ¬ s.qid ≥ (numQueries : Int)) (hb : i ≥ qb (s.qid + 1).toNat) :
    queryPartStepRow draws rank qb numQueries s i
      = some (if draws s.rngPos == rank
          then ⟨s.qid + 1, draws s.rngPos == rank, s.rngPos + 1, s.kept ++ [i]⟩
          else ⟨s.qid + 1, draws s.rngPos == rank, s.rngPos + 1, s.kept⟩) := by
  unfold queryPartStepRow
  rw [if_neg hq]
  dsimp only
  rw [if_pos hb]

theorem queryPart_within (draws : Nat → Nat) (rank : Nat) (qb : Nat → Nat)
    (numQueries : Nat) (L : List Nat) :
    ∀ (s : QueryPartState) (g : Nat), s.qid = (g : Int) → g < numQueries →
    (∀ i ∈ L, i < qb (g + 1)) →
    L.foldl (fun os i => os.bind
        (fun st => queryPartStepRow draws rank qb numQueries st i)) (some s)
      = some { s with kept := s.kept ++ (if s.is_query_used then L else []) } := by
  induction L with
  | nil =>
    intro s g hg hlt _
    cases s
    simp
  | cons i L ih =>
    rintro ⟨sq, su, sr, sk⟩ g hg hlt hmem
    have hq : ¬ (QueryPartState.mk sq su sr sk).qid ≥ (numQueries : Int) := by
      dsimp only
      rw [show sq = (g : Int) from hg]
      exact not_le.mpr (by exact_mod_cast hlt)
    have hb : ¬ i ≥ qb ((QueryPartState.mk sq su sr sk).qid + 1).toNat := by
      dsimp only
      rw [show sq = (g : Int) from hg,
        show ((g : Int) + 1) = ((g + 1 : Nat) : Int) by push_cast; ring,
        Int.toNat_natCast]
      exact not_le.mpr (hmem i (by simp))
    rw [List.foldl_cons]
    simp only [Option.some_bind]
    rw [queryPartStepRow_no_boundary draws rank qb numQueries _ i hq hb]
    cases su
    · rw [if_neg (by simp)]
      rw [ih _ g hg hlt (fun j hj => hmem j (by simp [hj]))]
      simp
    · rw [if_pos rfl]
      rw [ih (QueryPartState.mk sq true sr (sk ++ [i])) g hg hlt
        (fun j hj => hmem j (by simp [hj]))]
      simp

theorem queryPart_upto (draws : Nat → Nat) (rank : Nat) (qb : Nat → Nat)
    (numQueries : Nat) (hqb0 : qb 0 = 0)
    (hmono : ∀ g, g < numQueries → qb g < qb (g + 1)) :
    ∀ g, g ≤ numQueries →
    (List.range (qb g)).foldl (fun os i => os.bind
        (fun st => queryPartStepRow draws rank qb numQueries st i)) (some queryPartInit)
      = some ⟨(g : Int) - 1,
          (if g = 0 then false else draws (g - 1) == rank),
          g, keptUpTo draws rank qb g⟩ := by
  intro g
  induction g with
  | zero =>
    intro _
    rw [hqb0]
    simp [queryPartInit, keptUpTo]
  | succ g ih =>
    intro hle
    have hg : g < numQueries := by omega
    have hlt := hmono g hg
    obtain ⟨m, hm⟩ : ∃ m, qb (g + 1) - qb g = m + 1 := ⟨qb (g + 1) - qb g - 1, by omega⟩
    rw [range_split (qb g) (qb (g + 1)) (le_of_lt hlt), List.foldl_append, ih (by omega),
      hm, List.range'_succ, List.foldl_cons]
    simp only [Option.some_bind]
    have hq : ¬ ((QueryPartState.mk ((g : Int) - 1)
        (if g = 0 then false else draws (g - 1) == rank) g
        (keptUpTo draws rank qb g)).qid ≥ (numQueries : Int)) := by
      dsimp only
      omega
    have hb : qb g ≥ qb (((QueryPartState.mk ((g : Int) - 1)
        (if g = 0 then false else draws (g - 1) == rank) g
        (keptUpTo draws rank qb g)).qid + 1).toNat) := by
      dsimp only
      rw [show ((g : Int) - 1 + 1) = ((g : Nat) : Int) by ring, Int.toNat_natCast]
    rw [queryPartStepRow_boundary draws rank qb numQueries _ (qb g) hq hb]
    dsimp only
    have hmem : ∀ j, j ∈ List.range' (qb g + 1) m → j < qb (g + 1) := by
      intro j hj
      have := List.mem_range'_1.mp hj
      omega
    cases hd : draws g == rank
    · rw [if_neg (by simp)]
      rw [queryPart_within draws rank qb numQueries _
        (QueryPartState.mk ((g : Int) - 1 + 1) false (g + 1) (keptUpTo draws rank qb g))
        g (by dsimp only; ring) hg hmem]
      rw [keptUpTo_succ, hd]
      refine congrArg some ?_
      refine QueryPartState.mk.injEq .. |>.mpr ?_
      refine ⟨by push_cast; ring, by simp [hd, Nat.succ_ne_zero], rfl, by simp⟩
    · rw [if_pos rfl]
      rw [queryPart_within draws rank qb numQueries _
        (QueryPartState.mk ((g : Int) - 1 + 1) true (g + 1)
          (keptUpTo draws rank qb g ++ [qb g]))
        g (by dsimp only; ring) hg hmem]
      rw [keptUpTo_succ, hd]
      refine congrArg some ?_
      refine QueryPartState.mk.injEq .. |>.mpr ?_
      refine ⟨by push_cast; ring, by simp [hd, Nat.succ_ne_zero], rfl, ?_⟩
      dsimp only
      simp only [groupRows, hm, List.range'_succ, if_true]
      simp

/-- C7: under query-granularity partitioning with well-formed
boundaries (first boundary 0, strictly increasing, last boundary equal
to num_data), the loop of LoadFromBinFile lines 352-375 (identical in
state to the predicates of LoadTextDataToMemory lines 488-509 and
SampleTextDataFromFile lines 547-568) succeeds, consumes exactly one
RNG draw per query group (rngPos = num_queries, the draw for group g
being made when its first row is reached), and keeps exactly the rows
of those groups whose draw equals rank: the kept set is a union of
whole query groups.  The run is a pure function of (draws, rank,
boundaries), so any rerun with the same seed, rank and num_machines
reproduces the identical set. -/
theorem queryPartRun_spec (draws : Nat → Nat) (rank : Nat) (qb : Nat → Nat)
    (numQueries numData : Nat)
    (hqb0 : qb 0 = 0)
    (hmono : ∀ g, g < numQueries → qb g < qb (g + 1))
    (hlast : qb numQueries = numData) :
    ∃ s, queryPartRun draws rank qb numQueries numData = some s
      ∧ s.kept = keptUpTo draws rank qb numQueries
      ∧ s.rngPos = numQueries
      ∧ ∀ i, i ∈ s.kept ↔ ∃ g, g < numQueries ∧ (draws g == rank) = true
          ∧ qb g ≤ i ∧ i < qb (g + 1) := by
  have hpre := queryPart_upto draws rank qb numQueries hqb0 hmono numQueries le_rfl
  rw [hlast] at hpre
  refine ⟨_, hpre, rfl, rfl, ?_⟩
  intro i
  show i ∈ keptUpTo draws rank qb numQueries ↔ _
  unfold keptUpTo
  rw [List.mem_flatMap]
  constructor
  · rintro ⟨g, hgmem, hi⟩
    have hg : g < numQueries := List.mem_range.mp hgmem
    cases hd : draws g == rank
    · rw [hd] at hi
      simp at hi
    · rw [hd] at hi
      simp only [if_true] at hi
      have hlt := hmono g hg
      have := List.mem_range'_1.mp (by simpa [groupRows] using hi)
      exact ⟨g, hg, hd, this.1, by omega⟩
  · rintro ⟨g, hg, hd, h1, h2⟩
    refine ⟨g, List.mem_range.mpr hg, ?_⟩
    rw [hd]
    simp only [if_true]
    have hlt := hmono g hg
    exact List.mem_range'_1.mpr ⟨h1, by omega⟩

theorem queryPartRun_spec_witness :
    ∃ s, queryPartRun (fun k => k % 2) 1 (fun g => 2 * g) 2 4 = some s
      ∧ s.kept = keptUpTo (fun k => k % 2) 1 (fun g => 2 * g) 2
      ∧ s.rngPos = 2
      ∧ ∀ i, i ∈ s.kept ↔ ∃ g, g < 2 ∧ ((fun k => k % 2) g == 1) = true
          ∧ (fun g => 2 * g) g ≤ i ∧ i < (fun g => 2 * g) (g + 1) :=
  queryPartRun_spec (fun k => k % 2) 1 (fun g => 2 * g) 2 4 rfl (by decide) rfl

end DatasetLoaderSpec
